import Mathlib

/-!
Verification development for the lambda-mips-api repository.

Python dictionaries are modelled as association lists `List (String × α)`
preserving insertion order; dictionaries built by the code never hold a
duplicate key, and the key-freshness or nodup hypotheses appearing below
record exactly that.  Python strings are modelled through their character
lists (`String.data`), matching code-point slicing such as `code[:6]`.
Network effects of the upstream client are modelled by an `Oracle` record
holding the outcome of each remote call for one run, and each top-level
operation returns its result together with the trace of remote calls it
made, so that the login/logout discipline is visible in the theorems.
-/

/-- Lookup in an association list: value of the first entry with the key
(Python `d[k]` when present). -/
def lookupKV {α : Type} (d : List (String × α)) (k : String) : Option α :=
  (d.find? (fun e => decide (e.1 = k))).map Prod.snd

/-- Keys of an association list, in order (Python `d.keys()`). -/
def keysOf {α : Type} (d : List (String × α)) : List String :=
  d.map Prod.fst

/-- Python `d[k] = v`: if the key is present, rebind it in place, keeping
its position; otherwise append the new entry at the end. -/
def dictInsert {α : Type} (d : List (String × α)) (k : String) (v : α) :
    List (String × α) :=
  if d.any (fun e => decide (e.1 = k)) then
    d.map (fun e => if e.1 = k then (k, v) else e)
  else
    d ++ [(k, v)]

/-- Python `d.update(other)`: insert every entry of `other`, in order. -/
def dictUpdateAll {α : Type} (d : List (String × α)) (other : List (String × α)) :
    List (String × α) :=
  other.foldl (fun acc e => dictInsert acc e.1 e.2) d

/-- util.dict_prepend: build `new_dict = {key: value}` and then
`new_dict.update(original)`, so the new key sits first and the original
entries follow in order. -/
def dict_prepend {α : Type} (original : List (String × α)) (key : String) (value : α) :
    List (String × α) :=
  dictUpdateAll [(key, value)] original

/-- The ASCII fragment of the regex class `\w` (letters, digits and the
underscore).  The Unicode `\w` of the Python pattern also matches
non-ASCII word characters; those are outside the ASCII scope to which
the sanitizer theorem below is restricted. -/
def wordChar (c : Char) : Bool :=
  c.isAlpha || c.isDigit || c == '_'

/-- Whitespace recognised by the regex class `\s` in a Python str
pattern: the characters accepted by the CPython Unicode whitespace
predicate — tab through carriage return (9-13), the file, group, record
and unit separator controls (28-31), the space, and the non-ASCII
whitespace codepoints (next line 0x85, no-break space 0xa0, ogham space
0x1680, the 0x2000-0x200a range, the line and paragraph separators
0x2028 and 0x2029, 0x202f, 0x205f and the ideographic space 0x3000). -/
def pySpace (c : Char) : Bool :=
  decide (9 ≤ c.toNat ∧ c.toNat ≤ 13) || decide (28 ≤ c.toNat ∧ c.toNat ≤ 31)
    || c == ' ' || c.toNat == 0x85 || c.toNat == 0xa0 || c.toNat == 0x1680
    || decide (0x2000 ≤ c.toNat ∧ c.toNat ≤ 0x200a)
    || c.toNat == 0x2028 || c.toNat == 0x2029 || c.toNat == 0x202f
    || c.toNat == 0x205f || c.toNat == 0x3000

/-- Characters kept by the name sanitizer in chart.process_chart, that is
the complement of the regex class in `re.sub(r"[^\d\w\s.:/=+\-@]+", "", _name)`:
digits (`\d`), word characters (`\w`, modelled on its ASCII fragment),
whitespace (`\s`, modelled in full) and the literals `. : / = + - @`.
On ASCII characters this predicate is exactly the complement of the
negated class; non-ASCII word characters are outside the ASCII scope of
the sanitizer theorem. -/
def keepChar (c : Char) : Bool :=
  c.isDigit || wordChar c || pySpace c ||
    c == '.' || c == ':' || c == '/' || c == '=' || c == '+' || c == '-' || c == '@'

/-- Name sanitizer of chart.process_chart: `re.sub(r"[^\d\w\s.:/=+\-@]+", "", _name)`.
Because the replacement is empty, deleting each maximal run of characters
matching the negated class is the same as deleting every matching
character, i.e. filtering the string by `keepChar`.  The model is exact
on strings of ASCII characters; statements about name content are
restricted to those. -/
def sanitize (name : String) : String :=
  String.mk (name.data.filter keepChar)

/-- Modelled from the spec: the spec describes the sanitizer as removing
any character outside `[A-Za-z0-9 .:/=+\-@]` (a charset with the plain
space but without the underscore or other whitespace).  This definition
follows the spec wording and is compared against `sanitize` above. -/
def specKeepChar (c : Char) : Bool :=
  c.isAlpha || c.isDigit || c == ' ' ||
    c == '.' || c == ':' || c == '/' || c == '=' || c == '+' || c == '-' || c == '@'

/-- Modelled from the spec: sanitizer induced by the charset of the spec. -/
def specSanitize (name : String) : String :=
  String.mk (name.data.filter specKeepChar)

/-- Configuration parameters consumed by chart.process_chart
(the relevant entries of the params dict built by util.params_dict). -/
structure Params where
  hide_inactive : Bool
  show_other : Bool
  show_no_program : Bool
  priority_codes : Option (List String)

/-- Minimum code length accepted by the processor: 6 when hiding
inactive codes, else 5. -/
def codeLen (p : Params) : Nat :=
  if p.hide_inactive then 6 else 5

/-- Python `code[:6]`: the first six characters of a code. -/
def shortCode (code : String) : String :=
  String.mk (code.data.take 6)

/-- Number of characters of a string (Python `len(code)`). -/
def strLen (s : String) : Nat :=
  s.data.length

/-- The main loop of chart.process_chart over the raw chart entries,
carrying the list of already-found codes (seeded with the omit list) and
the output dictionary.  A code shorter than the threshold is skipped; its
first six characters form the short code; a short code already found is
skipped; a priority short code is front-inserted via dict_prepend, any
other short code is appended by plain dict assignment. -/
def addCodes (p : Params) :
    List String → List (String × String) → List (String × String) →
    List String × List (String × String)
  | found, out, [] => (found, out)
  | found, out, (code, rawName) :: rest =>
    if codeLen p ≤ strLen code then
      let short := shortCode code
      let name := sanitize rawName
      if short ∈ found then
        addCodes p found out rest
      else
        let out2 :=
          match p.priority_codes with
          | some pcs => if short ∈ pcs then dict_prepend out short name
                        else dictInsert out short name
          | none => dictInsert out short name
        addCodes p (found ++ [short]) out2 rest
    else
      addCodes p found out rest

/-- The non-synthetic part of the processed chart: the output of the main
loop started from the omit list and an empty output. -/
def naturalChart (chart : List (String × String)) (omitList : List String) (p : Params) :
    List (String × String) :=
  (addCodes p omitList [] chart).2

/-- chart.process_chart: run the main loop, then optionally front-insert
the synthetic Other code and, after it, the synthetic No Program code. -/
def process_chart (chart : List (String × String)) (omitList : List String)
    (other no_program : String) (p : Params) : List (String × String) :=
  let out1 := naturalChart chart omitList p
  let out2 := if p.show_other then dict_prepend out1 other "Other" else out1
  if p.show_no_program then dict_prepend out2 no_program "No Program" else out2

/-- Helper for theorem statements: the short codes accepted by the main
loop, in iteration order, starting from a given found list. -/
def matchedShorts (cl : Nat) : List String → List (String × String) → List String
  | _, [] => []
  | found, (code, _) :: rest =>
    if cl ≤ strLen code then
      let short := shortCode code
      if short ∈ found then matchedShorts cl found rest
      else short :: matchedShorts cl (found ++ [short]) rest
    else
      matchedShorts cl found rest

/-- Helper for theorem statements: the first raw entry whose code passes
the length threshold and truncates to the given short code. -/
def firstHit (cl : Nat) (s : String) (chart : List (String × String)) :
    Option (String × String) :=
  chart.find? (fun e => decide (cl ≤ strLen e.1) && decide (shortCode e.1 = s))

/-- Helper for theorem statements: the priority code list in force
(the empty list when priority_codes is absent, which disables the
front-insertion branch). -/
def pcsOf (p : Params) : List String :=
  p.priority_codes.getD []

/-- Python dictionary equality on association lists with nodup keys:
same size and every binding of the first is a binding of the second. -/
def pyDictEq {α : Type} [DecidableEq α] (a b : List (String × α)) : Bool :=
  decide (a.length = b.length) && a.all (fun kv => decide (lookupKV b kv.1 = some kv.2))

/-- s3.cache: write-through cache reconciliation.  The cached value is
always read first (a failed read, modelled as `none`, is logged and
tolerated).  A non-empty upstream value is compared to the cached value
and written only on change, then returned; an empty upstream value falls
back to the cached value; an empty effective value raises ValueError
("No valid response found").  The first component collects the values
written to S3 during the call. -/
def cache {α : Type} [DecidableEq α] (upstream_data : List (String × α))
    (cache_data : Option (List (String × α))) :
    List (List (String × α)) × Except String (List (String × α)) :=
  let step :
      List (List (String × α)) × Option (List (String × α)) :=
    if upstream_data = [] then
      ([], cache_data)
    else
      (if (match cache_data with
           | some c => pyDictEq upstream_data c
           | none => false) then [] else [upstream_data],
       some upstream_data)
  match step.2 with
  | some d => if d = [] then (step.1, .error "No valid response found")
              else (step.1, .ok d)
  | none => (step.1, .error "No valid response found")

/-- Outcome classes of an upstream HTTP call: a transport failure, an
authentication rejection (raise_for_status on the login response), a
response missing an expected field, or a missing segment. -/
inductive UpErr where
  | net : UpErr
  | auth : UpErr
  | badData : UpErr
  | notFound : UpErr
deriving DecidableEq

/-- Opaque JSON value carried in a balance response.  Subtrees other than
the injected period strings are never inspected by the code paths under
study, so they are abstracted as blobs. -/
inductive JVal where
  | str : String → JVal
  | num : Int → JVal
  | blob : Nat → JVal
deriving DecidableEq

/-- One record of the segments response: COA_SEGID and TITLE. -/
structure SegmentRec where
  coa_segid : Int
  title : String

/-- One record of the accounts response: COA_SEGID, COA_CODE, COA_STATUS
and COA_TITLE. -/
structure AccountRec where
  coa_segid : Int
  coa_code : String
  coa_status : String
  coa_title : String

/-- Remote-call trace entries of one top-level operation.  The logout
entry records the token that was passed to the logout helper (none when
the code logged out with access_token = None). -/
inductive ApiCall where
  | login : ApiCall
  | segments : ApiCall
  | accounts : ApiCall
  | balance : ApiCall
  | logout : Option String → ApiCall
deriving DecidableEq

/-- The network oracle for one run: the outcome each upstream endpoint
would produce when called (after the backoff-bounded retries of the
corresponding helper are exhausted or succeed). -/
structure Oracle where
  login : Except UpErr String
  segments : Except UpErr (List SegmentRec)
  accounts : Except UpErr (List AccountRec)
  balance : Except UpErr (List (String × JVal))

/-- upstream.get_segment_id body after the response arrives: scan the
COA_SEGID list for the segment with the given TITLE, raising ValueError
(modelled as UpErr.notFound) when no segment matches. -/
def get_segment_id (segs : List SegmentRec) (segment_name : String) : Except UpErr Int :=
  match segs.find? (fun s => decide (s.title = segment_name)) with
  | some s => .ok s.coa_segid
  | none => .error .notFound

/-- upstream.get_chart_segment body after the response arrives: keep the
accounts of the requested segment, dropping inactive ones when
hide_inactive is set, building the code-to-title dictionary in order. -/
def get_chart_segment (accounts : List AccountRec) (seg_id : Int)
    (hide_inactive : Bool) : List (String × String) :=
  accounts.foldl
    (fun acc a =>
      if a.coa_segid = seg_id then
        if hide_inactive && decide (a.coa_status ≠ "A") then acc
        else dictInsert acc a.coa_code a.coa_title
      else acc)
    []

/-- upstream.get_chart: login, fetch the segment id, fetch the chart, with
every exception of the try block caught and logged, and a finally block
that logs out exactly when access_token is not None (logout failures are
swallowed).  Returns the chart (empty on failure) and the remote-call
trace. -/
def get_chart (o : Oracle) (segment : String) (hide_inactive : Bool) :
    List (String × String) × List ApiCall :=
  match o.login with
  | .error _ => ([], [.login])
  | .ok tok =>
    match o.segments with
    | .error _ => ([], [.login, .segments, .logout (some tok)])
    | .ok segs =>
      match get_segment_id segs segment with
      | .error _ => ([], [.login, .segments, .logout (some tok)])
      | .ok sid =>
        match o.accounts with
        | .error _ => ([], [.login, .segments, .accounts, .logout (some tok)])
        | .ok accs =>
          (get_chart_segment accs sid hide_inactive,
           [.login, .segments, .accounts, .logout (some tok)])

/-- upstream.trial_balances: login and fetch the balances with every
exception of the try block caught and logged, a finally block that calls
the logout helper unconditionally (passing access_token even when it is
still None), and injection of the period_from and period_to strings into
the result before returning it.  The period strings come from
util.target_period, which is not part of the sources and is abstracted
as the two string parameters. -/
def trial_balances (o : Oracle) (start_str end_str : String) :
    List (String × JVal) × List ApiCall :=
  match o.login with
  | .error _ =>
    (dictInsert (dictInsert [] "period_from" (.str start_str))
       "period_to" (.str end_str),
     [.login, .logout none])
  | .ok tok =>
    match o.balance with
    | .error _ =>
      (dictInsert (dictInsert [] "period_from" (.str start_str))
         "period_to" (.str end_str),
       [.login, .balance, .logout (some tok)])
    | .ok bal =>
      (dictInsert (dictInsert bal "period_from" (.str start_str))
         "period_to" (.str end_str),
       [.login, .balance, .logout (some tok)])

/-- One cell of a CSV row produced by balances.process_balance. -/
inductive Cell where
  | s : String → Cell
  | i : Int → Cell
deriving DecidableEq

/-- One record of the Level1 detail list: DBDETAIL_SUM_SEGMENT_N0,
DBDETAIL_SUM_TYPE and DBDETAIL_SUM_POSTEDAMT. -/
structure DetailRow where
  segment : String
  sumType : Int
  amount : Int

/-- The balance response consumed by balances.process_balance, with the
fields the function reads; absent fields are none and reading them
raises KeyError. -/
structure BalResponse where
  executionResult : Option String
  extraInformation : List (String × List DetailRow)
  period_from : Option String
  period_to : Option String

/-- The per-account record collated by balances.process_balance; each
field is filled by the detail row of the matching DBDETAIL_SUM_TYPE. -/
structure BalEntry where
  balance_start : Option Int := none
  activity : Option Int := none
  balance_end : Option Int := none
deriving DecidableEq

/-- Store one detail row into the per-account record: type 1 is the start
balance, 2 the activity, 3 the end balance; other types are only logged. -/
def setEntry (e : BalEntry) (ty : Int) (amt : Int) : BalEntry :=
  if ty = 1 then { e with balance_start := some amt }
  else if ty = 2 then { e with activity := some amt }
  else if ty = 3 then { e with balance_end := some amt }
  else e

/-- The collation loop of balances.process_balance: group the detail rows
by account code in order of first appearance, bucketing each amount by
its type. -/
def collate (acc : List (String × BalEntry)) : List DetailRow → List (String × BalEntry)
  | [] => acc
  | d :: rest =>
    let acc1 := if (lookupKV acc d.segment).isSome then acc
                else acc ++ [(d.segment, {})]
    let acc2 := acc1.map
      (fun kv => if kv.1 = d.segment then (kv.1, setEntry kv.2 d.sumType d.amount) else kv)
    collate acc2 rest

/-- Errors raised by balances.process_balance: Python KeyError and
ValueError with their messages. -/
inductive PbErr where
  | keyError : String → PbErr
  | valueError : String → PbErr
deriving DecidableEq

/-- The extraInformation scan of balances.process_balance: walk the items,
raising KeyError at the first key that is not Level1, otherwise keeping
the value of the latest Level1 key as the detail list. -/
def getDetail (acc : List DetailRow) : List (String × List DetailRow) →
    Except PbErr (List DetailRow)
  | [] => .ok acc
  | (k, v) :: rest =>
    if k = "Level1" then getDetail v rest
    else .error (.keyError "No Level1 key found")

/-- The row-emission loop of balances.process_balance: for each collated
account, skip it when it is absent from the chart (logged only),
otherwise read the period fields of the response and the three collated
amounts, raising KeyError at the first missing one, and emit the CSV
data row. -/
def emitRows (bal : BalResponse) (coa : List (String × String)) :
    List (String × BalEntry) → Except PbErr (List (List Cell))
  | [] => .ok []
  | (k, v) :: rest =>
    match lookupKV coa k with
    | none => emitRows bal coa rest
    | some name =>
      match bal.period_from with
      | none => .error (.keyError "period_from")
      | some pf =>
        match bal.period_to with
        | none => .error (.keyError "period_to")
        | some pt =>
          match v.balance_start with
          | none => .error (.keyError "balance_start")
          | some bs =>
            match v.activity with
            | none => .error (.keyError "activity")
            | some act =>
              match v.balance_end with
              | none => .error (.keyError "balance_end")
              | some be =>
                match emitRows bal coa rest with
                | .error e => .error e
                | .ok rows =>
                  .ok ([Cell.s k, Cell.s name, Cell.s pf, Cell.s pt,
                        Cell.i bs, Cell.i act, Cell.i be] :: rows)

/-- The header row of the CSV produced by balances.process_balance. -/
def headersRow : List Cell :=
  [Cell.s "AccountNumber", Cell.s "AccountName", Cell.s "PeriodStart",
   Cell.s "PeriodEnd", Cell.s "StartBalance", Cell.s "Activity",
   Cell.s "EndBalance"]

/-- balances.process_balance: check the execution result (KeyError when
absent, ValueError when not SUCCESS), extract the Level1 detail list,
collate it by account, and emit the header row followed by one data row
per collated account present in the chart. -/
def process_balance (bal : BalResponse) (coa : List (String × String)) :
    Except PbErr (List (List Cell)) :=
  match bal.executionResult with
  | none => .error (.keyError "No executionResult key found")
  | some r =>
    if r = "SUCCESS" then
      match getDetail [] bal.extraInformation with
      | .error e => .error e
      | .ok detail =>
        match emitRows bal coa (collate [] detail) with
        | .error e => .error e
        | .ok rows => .ok (headersRow :: rows)
    else .error (.valueError "Execution result is not SUCCESS")

/-- Helper for theorem statements: the detail list selected by the
extraInformation scan when every key is Level1 (the value of the last
item, or the empty list). -/
def detailOf (l : List (String × List DetailRow)) : List DetailRow :=
  l.foldl (fun _a kv => kv.2) []

/-- Helper for theorem statements: the data rows of process_balance when
every chart-present collated account carries all three amounts. -/
def cleanRows (pf pt : String) (coa : List (String × String))
    (data : List (String × BalEntry)) : List (List Cell) :=
  data.filterMap
    (fun kv =>
      match lookupKV coa kv.1, kv.2.balance_start, kv.2.activity, kv.2.balance_end with
      | some name, some bs, some act, some be =>
        some [Cell.s kv.1, Cell.s name, Cell.s pf, Cell.s pt,
              Cell.i bs, Cell.i act, Cell.i be]
      | _, _, _, _ => none)


/-- A run whose login attempt fails with an authentication rejection and
whose other endpoints would answer normally. -/
def oLoginFail : Oracle where
  login := .error .auth
  segments := .ok []
  accounts := .ok []
  balance := .ok []

theorem mem_keysOf {α : Type} {d : List (String × α)} {x : String} :
    x ∈ keysOf d ↔ ∃ e ∈ d, e.1 = x := by
  simp [keysOf]

theorem mem_keysOf_of_mem {α : Type} {d : List (String × α)} {e : String × α}
    (he : e ∈ d) : e.1 ∈ keysOf d :=
  mem_keysOf.mpr ⟨e, he, rfl⟩

theorem lookupKV_nil {α : Type} (k : String) :
    lookupKV ([] : List (String × α)) k = none := rfl

theorem lookupKV_cons {α : Type} (e : String × α) (d : List (String × α)) (k : String) :
    lookupKV (e :: d) k = if e.1 = k then some e.2 else lookupKV d k := by
  by_cases h : e.1 = k <;> simp [lookupKV, List.find?_cons, h]

theorem lookupKV_eq_none {α : Type} (d : List (String × α)) (k : String) :
    lookupKV d k = none ↔ k ∉ keysOf d := by
  induction d with
  | nil => simp [lookupKV_nil, keysOf]
  | cons e rest ih =>
    rw [lookupKV_cons]
    by_cases h : e.1 = k
    · simp only [if_pos h, keysOf, List.map_cons, List.mem_cons]
      constructor
      · intro hc; exact absurd hc (by simp)
      · intro hc; exact absurd (Or.inl h.symm) hc
    · simp only [if_neg h, ih, keysOf, List.map_cons, List.mem_cons, not_or]
      constructor
      · intro hh; exact ⟨fun hc => h hc.symm, hh⟩
      · intro hh; exact hh.2

theorem lookupKV_isSome {α : Type} (d : List (String × α)) (k : String) :
    (lookupKV d k).isSome ↔ k ∈ keysOf d := by
  rw [← not_iff_not, ← lookupKV_eq_none d k, Option.not_isSome_iff_eq_none]

theorem lookupKV_append {α : Type} (d e : List (String × α)) (k : String) :
    lookupKV (d ++ e) k =
      match lookupKV d k with
      | some v => some v
      | none => lookupKV e k := by
  induction d with
  | nil => simp [lookupKV_nil]
  | cons f rest ih =>
    rw [List.cons_append, lookupKV_cons, lookupKV_cons]
    by_cases h : f.1 = k <;> simp [h, ih]

theorem mem_keysOf_append {α : Type} (d e : List (String × α)) (k : String) :
    k ∈ keysOf (d ++ e) ↔ k ∈ keysOf d ∨ k ∈ keysOf e := by
  simp [keysOf]

theorem dictInsert_fresh {α : Type} (d : List (String × α)) (k : String) (v : α)
    (h : k ∉ keysOf d) : dictInsert d k v = d ++ [(k, v)] := by
  have hany : d.any (fun e => decide (e.1 = k)) = false := by
    rw [List.any_eq_false]
    intro e he
    simp only [decide_eq_true_eq]
    intro hek
    exact h (hek ▸ mem_keysOf_of_mem he)
  simp [dictInsert, hany]

theorem mem_keysOf_dictInsert {α : Type} (d : List (String × α)) (k : String) (v : α)
    (x : String) (h : x ∈ keysOf (dictInsert d k v)) : x ∈ keysOf d ∨ x = k := by
  by_cases hany : d.any (fun e => decide (e.1 = k)) = true
  · simp only [dictInsert, hany, if_true, keysOf, List.map_map, List.mem_map] at h
    obtain ⟨e, he, hx⟩ := h
    by_cases hek : e.1 = k
    · right
      simpa [Function.comp, hek] using hx.symm
    · left
      simp only [Function.comp, if_neg hek] at hx
      exact hx ▸ mem_keysOf_of_mem he
  · simp only [dictInsert, hany, if_false] at h
    rcases (mem_keysOf_append _ _ _).mp h with h1 | h2
    · exact Or.inl h1
    · right
      simpa [keysOf] using h2

theorem lookupKV_map_rebind {α : Type} (d : List (String × α)) (k : String) (v : α)
    (x : String) (hx : x ≠ k) :
    lookupKV (d.map (fun e => if e.1 = k then (k, v) else e)) x = lookupKV d x := by
  induction d with
  | nil => rfl
  | cons e rest ih =>
    rw [List.map_cons, lookupKV_cons, lookupKV_cons]
    by_cases hek : e.1 = k
    · rw [if_pos hek]
      rw [if_neg (show (k, v).1 ≠ x from Ne.symm hx)]
      rw [if_neg (fun hc => hx (hek ▸ hc).symm), ih]
    · rw [if_neg hek]
      by_cases hex : e.1 = x
      · rw [if_pos hex, if_pos hex]
      · rw [if_neg hex, if_neg hex, ih]

theorem lookupKV_dictInsert_ne {α : Type} (d : List (String × α)) (k : String) (v : α)
    (x : String) (hx : x ≠ k) : lookupKV (dictInsert d k v) x = lookupKV d x := by
  by_cases hany : d.any (fun e => decide (e.1 = k)) = true
  · simp only [dictInsert, hany, if_true]
    exact lookupKV_map_rebind d k v x hx
  · simp only [dictInsert]
    rw [if_neg hany, lookupKV_append]
    cases hv : lookupKV d x with
    | some w => rfl
    | none => rw [lookupKV_cons, if_neg (Ne.symm hx), lookupKV_nil]

theorem dictUpdateAll_fresh {α : Type} (other : List (String × α)) :
    ∀ acc : List (String × α), (keysOf other).Nodup →
    (∀ e ∈ other, e.1 ∉ keysOf acc) →
    dictUpdateAll acc other = acc ++ other := by
  induction other with
  | nil => intro acc _ _; simp [dictUpdateAll]
  | cons e rest ih =>
    intro acc hnd hfresh
    have h1 : e.1 ∉ keysOf acc := hfresh e (by simp)
    have hstep : dictInsert acc e.1 e.2 = acc ++ [(e.1, e.2)] :=
      dictInsert_fresh acc e.1 e.2 h1
    have hnd0 : e.1 ∉ keysOf rest ∧ (keysOf rest).Nodup := by
      have := hnd
      simp only [keysOf, List.map_cons, List.nodup_cons] at this
      exact this
    have hne : ∀ f ∈ rest, f.1 ≠ e.1 := by
      intro f hf hc
      exact hnd0.1 (hc ▸ mem_keysOf_of_mem hf)
    have hfresh2 : ∀ f ∈ rest, f.1 ∉ keysOf (acc ++ [(e.1, e.2)]) := by
      intro f hf
      rw [mem_keysOf_append]
      rintro (h | h)
      · exact hfresh f (by simp [hf]) h
      · exact hne f hf (by simpa [keysOf] using h)
    have hfold : dictUpdateAll acc (e :: rest) = dictUpdateAll (acc ++ [(e.1, e.2)]) rest := by
      simp [dictUpdateAll, hstep]
    rw [hfold, ih (acc ++ [(e.1, e.2)]) hnd0.2 hfresh2]
    simp

theorem dict_prepend_fresh {α : Type} (d : List (String × α)) (k : String) (v : α)
    (hnd : (keysOf d).Nodup) (h : k ∉ keysOf d) :
    dict_prepend d k v = (k, v) :: d := by
  have hres : dict_prepend d k v = [(k, v)] ++ d := by
    apply dictUpdateAll_fresh d [(k, v)] hnd
    intro e he
    simp only [keysOf, List.map_cons, List.map_nil, List.mem_singleton]
    intro hc
    exact h (hc ▸ mem_keysOf_of_mem he)
  simpa using hres

theorem lookup_decomp {α : Type} (d : List (String × α)) (k : String) (w : α)
    (hnd : (keysOf d).Nodup) (hl : lookupKV d k = some w) :
    ∃ d1 d2, d = d1 ++ (k, w) :: d2 ∧ k ∉ keysOf d1 ∧ k ∉ keysOf d2 := by
  induction d with
  | nil => simp [lookupKV_nil] at hl
  | cons e rest ih =>
    have hnd0 : e.1 ∉ keysOf rest ∧ (keysOf rest).Nodup := by
      have := hnd
      simp only [keysOf, List.map_cons, List.nodup_cons] at this
      exact this
    rw [lookupKV_cons] at hl
    by_cases h : e.1 = k
    · rw [if_pos h] at hl
      refine ⟨[], rest, ?_, by simp [keysOf], h ▸ hnd0.1⟩
      have hw : e.2 = w := Option.some.inj hl
      simp [← h, ← hw]
    · rw [if_neg h] at hl
      obtain ⟨d1, d2, hd, h1, h2⟩ := ih hnd0.2 hl
      refine ⟨e :: d1, d2, by simp [hd], ?_, h2⟩
      simp only [keysOf, List.map_cons, List.mem_cons, not_or]
      exact ⟨fun hc => h hc.symm, by simpa [keysOf] using h1⟩

theorem map_rebind_id {α : Type} (d : List (String × α)) (k : String) (v : α)
    (h : ∀ e ∈ d, e.1 ≠ k) :
    d.map (fun e => if e.1 = k then (k, v) else e) = d := by
  induction d with
  | nil => rfl
  | cons e rest ih =>
    rw [List.map_cons, if_neg (h e (by simp)), ih (fun f hf => h f (by simp [hf]))]

theorem dictInsert_found {α : Type} (d1 d2 : List (String × α)) (k : String) (w v : α)
    (h1 : ∀ e ∈ d1, e.1 ≠ k) (h2 : ∀ e ∈ d2, e.1 ≠ k) :
    dictInsert (d1 ++ (k, w) :: d2) k v = d1 ++ (k, v) :: d2 := by
  have hany : (d1 ++ (k, w) :: d2).any (fun e => decide (e.1 = k)) = true := by
    rw [List.any_eq_true]
    exact ⟨(k, w), by simp, by simp⟩
  simp only [dictInsert, hany, if_true]
  rw [List.map_append, List.map_cons]
  rw [map_rebind_id d1 k v h1, map_rebind_id d2 k v h2]
  simp

theorem dict_prepend_found {α : Type} (d : List (String × α)) (k : String) (v w : α)
    (hnd : (keysOf d).Nodup) (hl : lookupKV d k = some w) :
    dict_prepend d k v = (k, w) :: d.filter (fun e => decide (e.1 ≠ k)) := by
  obtain ⟨d1, d2, hd, h1, h2⟩ := lookup_decomp d k w hnd hl
  subst hd
  have hnd1 : (keysOf d1).Nodup ∧ (keysOf ((k, w) :: d2)).Nodup ∧
      (keysOf d1).Disjoint (keysOf ((k, w) :: d2)) := by
    have := hnd
    rw [show keysOf (d1 ++ (k, w) :: d2) = keysOf d1 ++ keysOf ((k, w) :: d2) by
      simp [keysOf]] at this
    exact List.nodup_append.mp this
  have hne1 : ∀ e ∈ d1, e.1 ≠ k := by
    intro e he hc
    exact h1 (hc ▸ mem_keysOf_of_mem he)
  have hne2 : ∀ e ∈ d2, e.1 ≠ k := by
    intro e he hc
    exact h2 (hc ▸ mem_keysOf_of_mem he)
  have hnd2 : (keysOf d2).Nodup := by
    have := hnd1.2.1
    simp only [keysOf, List.map_cons, List.nodup_cons] at this
    exact this.2
  -- phase 1: fold the entries before the hit into the fresh accumulator
  have hphase1 : dictUpdateAll [(k, v)] d1 = (k, v) :: d1 := by
    have := dictUpdateAll_fresh d1 [(k, v)] hnd1.1 (by
      intro e he
      simp only [keysOf, List.map_cons, List.map_nil, List.mem_singleton]
      exact hne1 e he)
    simpa using this
  -- phase 2: the entry with the hit key rebinds it in first position
  have hphase2 : dictInsert ((k, v) :: d1) k w = (k, w) :: d1 := by
    have := dictInsert_found ([] : List (String × α)) d1 k v w (by simp) hne1
    simpa using this
  -- phase 3: the remaining entries are fresh and are appended
  have hphase3 : dictUpdateAll ((k, w) :: d1) d2 = (k, w) :: d1 ++ d2 := by
    have := dictUpdateAll_fresh d2 ((k, w) :: d1) hnd2 (by
      intro e he
      simp only [keysOf, List.map_cons, List.mem_cons, not_or]
      refine ⟨hne2 e he, ?_⟩
      intro hc
      exact hnd1.2.2 hc (by
        simp only [keysOf, List.map_cons, List.mem_cons]
        exact Or.inr (mem_keysOf_of_mem he))
      )
    simpa using this
  have hsplit : dict_prepend (d1 ++ (k, w) :: d2) k v =
      dictUpdateAll (dictInsert (dictUpdateAll [(k, v)] d1) k w) d2 := by
    simp [dict_prepend, dictUpdateAll, List.foldl_append, List.foldl_cons]
  rw [hsplit, hphase1, hphase2, hphase3]
  have hfilter : (d1 ++ (k, w) :: d2).filter (fun e => decide (e.1 ≠ k)) = d1 ++ d2 := by
    rw [List.filter_append, List.filter_cons]
    have hck : (decide ((k, w).1 ≠ k)) = false := by simp
    rw [hck]
    rw [List.filter_eq_self.mpr (by intro e he; simpa using hne1 e he),
        List.filter_eq_self.mpr (by intro e he; simpa using hne2 e he)]
    simp
  rw [hfilter]
  simp

theorem lookupKV_filter_ne {α : Type} (d : List (String × α)) (k x : String)
    (hx : x ≠ k) :
    lookupKV (d.filter (fun e => decide (e.1 ≠ k))) x = lookupKV d x := by
  induction d with
  | nil => rfl
  | cons e rest ih =>
    rw [List.filter_cons]
    by_cases hek : e.1 = k
    · have hc : (decide (e.1 ≠ k)) = false := by simp [hek]
      rw [hc]
      simp only [Bool.false_eq_true, if_false, ih, lookupKV_cons]
      rw [if_neg (fun hc2 : e.1 = x => hx (hek ▸ hc2 : (k : String) = x).symm)]
    · have hc : (decide (e.1 ≠ k)) = true := by simp [hek]
      rw [hc]
      simp only [if_true, lookupKV_cons, ih]

theorem keysOf_filter_ne_sub {α : Type} (d : List (String × α)) (k : String) :
    keysOf (d.filter (fun e => decide (e.1 ≠ k))) ⊆ keysOf d := by
  intro x hx
  obtain ⟨e, he, hex⟩ := mem_keysOf.mp hx
  exact hex ▸ mem_keysOf_of_mem (List.mem_of_mem_filter he)

theorem keysOf_filter_ne_nodup {α : Type} (d : List (String × α)) (k : String)
    (hnd : (keysOf d).Nodup) :
    (keysOf (d.filter (fun e => decide (e.1 ≠ k)))).Nodup := by
  have hsub : (d.filter (fun e => decide (e.1 ≠ k))).Sublist d := List.filter_sublist d
  exact hnd.sublist (hsub.map Prod.fst)

theorem dict_prepend_nodup {α : Type} (d : List (String × α)) (k : String) (v : α)
    (hnd : (keysOf d).Nodup) : (keysOf (dict_prepend d k v)).Nodup := by
  by_cases hk : k ∈ keysOf d
  · obtain ⟨w, hw⟩ := Option.isSome_iff_exists.mp ((lookupKV_isSome d k).mpr hk)
    rw [dict_prepend_found d k v w hnd hw]
    simp only [keysOf, List.map_cons, List.nodup_cons]
    constructor
    · intro hc
      obtain ⟨e, he, hek⟩ := mem_keysOf.mp hc
      exact (by simpa using (List.mem_filter.mp he).2 : e.1 ≠ k) hek
    · exact keysOf_filter_ne_nodup d k hnd
  · rw [dict_prepend_fresh d k v hnd hk]
    simp only [keysOf, List.map_cons, List.nodup_cons]
    exact ⟨hk, hnd⟩

theorem mem_keysOf_dict_prepend {α : Type} (d : List (String × α)) (k : String) (v : α)
    (x : String) (hnd : (keysOf d).Nodup) (h : x ∈ keysOf (dict_prepend d k v)) :
    x = k ∨ x ∈ keysOf d := by
  by_cases hk : k ∈ keysOf d
  · obtain ⟨w, hw⟩ := Option.isSome_iff_exists.mp ((lookupKV_isSome d k).mpr hk)
    rw [dict_prepend_found d k v w hnd hw] at h
    simp only [keysOf, List.map_cons, List.mem_cons] at h
    rcases h with h | h
    · exact Or.inl h
    · exact Or.inr (keysOf_filter_ne_sub d k h)
  · rw [dict_prepend_fresh d k v hnd hk] at h
    simp only [keysOf, List.map_cons, List.mem_cons] at h
    exact h

theorem lookupKV_dict_prepend_ne {α : Type} (d : List (String × α)) (k : String) (v : α)
    (x : String) (hnd : (keysOf d).Nodup) (hx : x ≠ k) :
    lookupKV (dict_prepend d k v) x = lookupKV d x := by
  by_cases hk : k ∈ keysOf d
  · obtain ⟨w, hw⟩ := Option.isSome_iff_exists.mp ((lookupKV_isSome d k).mpr hk)
    rw [dict_prepend_found d k v w hnd hw, lookupKV_cons, if_neg (Ne.symm hx)]
    exact lookupKV_filter_ne d k x hx
  · rw [dict_prepend_fresh d k v hnd hk, lookupKV_cons, if_neg (Ne.symm hx)]


theorem lookupKV_append_single_ne {α : Type} (d : List (String × α)) (s x : String)
    (v : α) (hx : x ≠ s) : lookupKV (d ++ [(s, v)]) x = lookupKV d x := by
  rw [lookupKV_append]
  cases hv : lookupKV d x with
  | some w => rfl
  | none => rw [lookupKV_cons, if_neg (Ne.symm hx), lookupKV_nil]

theorem lookupKV_append_single_self {α : Type} (d : List (String × α)) (s : String)
    (v : α) (hs : s ∉ keysOf d) : lookupKV (d ++ [(s, v)]) s = some v := by
  rw [lookupKV_append, (lookupKV_eq_none d s).mpr hs]
  simp [lookupKV_cons]

/-- The output update performed by the main loop for a fresh short code:
a cons at the very front in the priority branch, an append at the end
otherwise. -/
theorem out2_cases (p : Params) (out : List (String × String)) (s name : String)
    (hfresh : s ∉ keysOf out) (hnd : (keysOf out).Nodup) :
    (match p.priority_codes with
     | some pcs => if s ∈ pcs then dict_prepend out s name else dictInsert out s name
     | none => dictInsert out s name) =
      (if s ∈ pcsOf p then (s, name) :: out else out ++ [(s, name)]) := by
  cases hpc : p.priority_codes with
  | none =>
    simp only [pcsOf, hpc, Option.getD_none, List.not_mem_nil, if_neg, if_false]
    exact dictInsert_fresh out s name hfresh
  | some pcs =>
    simp only [pcsOf, hpc, Option.getD_some]
    by_cases hmem : s ∈ pcs
    · rw [if_pos hmem, if_pos hmem]
      exact dict_prepend_fresh out s name hnd hfresh
    · rw [if_neg hmem, if_neg hmem]
      exact dictInsert_fresh out s name hfresh

theorem keysOf_append {α : Type} (d e : List (String × α)) :
    keysOf (d ++ e) = keysOf d ++ keysOf e := by
  simp [keysOf]

/-- Bindings of short codes already marked found are never touched by the
rest of the main loop. -/
theorem addCodes_lookup_found (p : Params) :
    ∀ (l : List (String × String)) (found : List String)
      (out : List (String × String)) (k : String),
      keysOf out ⊆ found → (keysOf out).Nodup → k ∈ found →
      lookupKV (addCodes p found out l).2 k = lookupKV out k := by
  intro l
  induction l with
  | nil => intro found out k _ _ _; rfl
  | cons e rest ih =>
    intro found out k hsub hnd hk
    obtain ⟨code, rawName⟩ := e
    by_cases hlen : codeLen p ≤ strLen code
    · simp only [addCodes, if_pos hlen]
      by_cases hf : shortCode code ∈ found
      · simp only [if_pos hf]
        exact ih found out k hsub hnd hk
      · simp only [if_neg hf]
        have hfresh : shortCode code ∉ keysOf out := fun hc => hf (hsub hc)
        rw [out2_cases p out (shortCode code) (sanitize rawName) hfresh hnd]
        have hks : k ≠ shortCode code := fun hc => hf (hc ▸ hk)
        by_cases hp : shortCode code ∈ pcsOf p
        · rw [if_pos hp]
          have hsub2 : keysOf ((shortCode code, sanitize rawName) :: out) ⊆
              found ++ [shortCode code] := by
            intro x hx
            simp only [keysOf, List.map_cons, List.mem_cons] at hx
            rcases hx with hx | hx
            · simp [hx]
            · exact List.mem_append_left _ (hsub hx)
          have hnd2 : (keysOf ((shortCode code, sanitize rawName) :: out)).Nodup := by
            simp only [keysOf, List.map_cons, List.nodup_cons]
            exact ⟨hfresh, hnd⟩
          rw [ih (found ++ [shortCode code]) _ k hsub2 hnd2 (List.mem_append_left _ hk)]
          rw [lookupKV_cons, if_neg (Ne.symm hks)]
        · rw [if_neg hp]
          have hsub2 : keysOf (out ++ [(shortCode code, sanitize rawName)]) ⊆
              found ++ [shortCode code] := by
            intro x hx
            rw [mem_keysOf_append] at hx
            rcases hx with hx | hx
            · exact List.mem_append_left _ (hsub hx)
            · simp only [keysOf, List.map_cons, List.map_nil, List.mem_singleton] at hx
              simp [hx]
          have hnd2 : (keysOf (out ++ [(shortCode code, sanitize rawName)])).Nodup := by
            rw [keysOf_append]
            apply List.Nodup.append hnd (by simp [keysOf])
            intro x hx hx2
            simp only [keysOf, List.map_cons, List.map_nil, List.mem_singleton] at hx2
            exact hfresh (hx2 ▸ hx)
          rw [ih (found ++ [shortCode code]) _ k hsub2 hnd2 (List.mem_append_left _ hk)]
          exact lookupKV_append_single_ne out (shortCode code) k (sanitize rawName) hks
    · simp only [addCodes, if_neg hlen]
      exact ih found out k hsub hnd hk

/-- Invariant facts about the updated output of one fresh step of the
main loop, uniformly over the front-insert and append branches. -/
theorem out2_inv (s name : String) (found : List String)
    (out : List (String × String)) (c : Prop) [Decidable c]
    (hf : s ∉ found) (hsub : keysOf out ⊆ found) (hnd : (keysOf out).Nodup) :
    keysOf (if c then (s, name) :: out else out ++ [(s, name)]) ⊆ found ++ [s]
    ∧ (keysOf (if c then (s, name) :: out else out ++ [(s, name)])).Nodup
    ∧ lookupKV (if c then (s, name) :: out else out ++ [(s, name)]) s = some name
    ∧ (∀ x, x ≠ s → lookupKV (if c then (s, name) :: out else out ++ [(s, name)]) x
        = lookupKV out x)
    ∧ keysOf (if c then (s, name) :: out else out ++ [(s, name)])
        = (if c then s :: keysOf out else keysOf out ++ [s]) := by
  have hfresh : s ∉ keysOf out := fun hc => hf (hsub hc)
  by_cases hc : c
  · rw [if_pos hc, if_pos hc]
    refine ⟨?_, ?_, ?_, ?_, by simp [keysOf]⟩
    · intro x hx
      simp only [keysOf, List.map_cons, List.mem_cons] at hx
      rcases hx with hx | hx
      · simp [hx]
      · exact List.mem_append_left _ (hsub hx)
    · simp only [keysOf, List.map_cons, List.nodup_cons]
      exact ⟨hfresh, hnd⟩
    · rw [lookupKV_cons, if_pos rfl]
    · intro x hx
      rw [lookupKV_cons, if_neg (Ne.symm hx)]
  · rw [if_neg hc, if_neg hc]
    refine ⟨?_, ?_, ?_, ?_, by simp [keysOf]⟩
    · intro x hx
      rw [mem_keysOf_append] at hx
      rcases hx with hx | hx
      · exact List.mem_append_left _ (hsub hx)
      · simp only [keysOf, List.map_cons, List.map_nil, List.mem_singleton] at hx
        simp [hx]
    · rw [keysOf_append]
      apply List.Nodup.append hnd (by simp [keysOf])
      intro x hx hx2
      simp only [keysOf, List.map_cons, List.map_nil, List.mem_singleton] at hx2
      exact hfresh (hx2 ▸ hx)
    · exact lookupKV_append_single_self out s name hfresh
    · intro x hx
      exact lookupKV_append_single_ne out s x name hx

theorem firstHit_cons (cl : Nat) (s : String) (e : String × String)
    (l : List (String × String)) :
    firstHit cl s (e :: l) =
      if cl ≤ strLen e.1 ∧ shortCode e.1 = s then some e else firstHit cl s l := by
  by_cases h1 : cl ≤ strLen e.1 <;> by_cases h2 : shortCode e.1 = s <;>
    simp [firstHit, List.find?_cons, h1, h2]

/-- Binding produced by the main loop for a short code that is not yet
found: the sanitized name of the first qualifying raw entry truncating
to it. -/
theorem addCodes_lookup_new (p : Params) :
    ∀ (l : List (String × String)) (found : List String)
      (out : List (String × String)) (k : String),
      keysOf out ⊆ found → (keysOf out).Nodup → k ∉ found →
      lookupKV (addCodes p found out l).2 k
        = (firstHit (codeLen p) k l).map (fun e => sanitize e.2) := by
  intro l
  induction l with
  | nil =>
    intro found out k hsub _ hk
    simp only [addCodes, firstHit, List.find?_nil, Option.map_none]
    exact (lookupKV_eq_none out k).mpr (fun hc => hk (hsub hc))
  | cons e rest ih =>
    intro found out k hsub hnd hk
    obtain ⟨code, rawName⟩ := e
    rw [firstHit_cons]
    by_cases hlen : codeLen p ≤ strLen code
    · simp only [addCodes, if_pos hlen]
      by_cases hf : shortCode code ∈ found
      · simp only [if_pos hf]
        have hks : ¬ (codeLen p ≤ strLen (code, rawName).1 ∧
            shortCode (code, rawName).1 = k) := by
          rintro ⟨_, hc⟩
          exact hk (hc ▸ hf)
        rw [if_neg hks]
        exact ih found out k hsub hnd hk
      · simp only [if_neg hf]
        have hfresh : shortCode code ∉ keysOf out := fun hc => hf (hsub hc)
        rw [out2_cases p out (shortCode code) (sanitize rawName) hfresh hnd]
        obtain ⟨hsub2, hnd2, hself, hother, _⟩ :=
          out2_inv (shortCode code) (sanitize rawName) found out
            (shortCode code ∈ pcsOf p) hf hsub hnd
        by_cases hks : shortCode code = k
        · have hcond : codeLen p ≤ strLen (code, rawName).1 ∧
              shortCode (code, rawName).1 = k := ⟨hlen, hks⟩
          rw [if_pos hcond]
          rw [addCodes_lookup_found p rest (found ++ [shortCode code]) _ k hsub2 hnd2
            (by simp [hks])]
          rw [← hks]
          exact hself
        · have hcond : ¬ (codeLen p ≤ strLen (code, rawName).1 ∧
              shortCode (code, rawName).1 = k) := by
            rintro ⟨_, hc⟩
            exact hks hc
          rw [if_neg hcond]
          have hk2 : k ∉ found ++ [shortCode code] := by
            rw [List.mem_append]
            rintro (hc | hc)
            · exact hk hc
            · exact hks (show k = shortCode code by simpa using hc).symm
          exact ih (found ++ [shortCode code]) _ k hsub2 hnd2 hk2
    · simp only [addCodes, if_neg hlen]
      have hcond : ¬ (codeLen p ≤ strLen (code, rawName).1 ∧
          shortCode (code, rawName).1 = k) := by
        rintro ⟨hc, _⟩
        exact hlen hc
      rw [if_neg hcond]
      exact ih found out k hsub hnd hk

/-- Origin of the keys produced by the main loop: an initial key, or the
short code of some qualifying raw entry that was not in the found list. -/
theorem addCodes_keys_origin (p : Params) :
    ∀ (l : List (String × String)) (found : List String)
      (out : List (String × String)),
      keysOf out ⊆ found → (keysOf out).Nodup →
      ∀ k ∈ keysOf (addCodes p found out l).2,
        k ∈ keysOf out ∨
          (k ∉ found ∧ ∃ e ∈ l, codeLen p ≤ strLen e.1 ∧ shortCode e.1 = k) := by
  intro l
  induction l with
  | nil =>
    intro found out _ _ k hk
    exact Or.inl hk
  | cons e rest ih =>
    intro found out hsub hnd k hk
    obtain ⟨code, rawName⟩ := e
    by_cases hlen : codeLen p ≤ strLen code
    · simp only [addCodes, if_pos hlen] at hk
      by_cases hf : shortCode code ∈ found
      · rw [if_pos hf] at hk
        rcases ih found out hsub hnd k hk with h | ⟨h1, e2, h2, h3⟩
        · exact Or.inl h
        · exact Or.inr ⟨h1, e2, by simp [h2], h3⟩
      · rw [if_neg hf] at hk
        rw [out2_cases p out (shortCode code) (sanitize rawName)
          (fun hc => hf (hsub hc)) hnd] at hk
        obtain ⟨hsub2, hnd2, _, _, hkeys⟩ :=
          out2_inv (shortCode code) (sanitize rawName) found out
            (shortCode code ∈ pcsOf p) hf hsub hnd
        rcases ih (found ++ [shortCode code]) _ hsub2 hnd2 k hk with h | ⟨h1, e2, h2, h3⟩
        · rw [hkeys] at h
          have hmem : k = shortCode code ∨ k ∈ keysOf out := by
            by_cases hc : shortCode code ∈ pcsOf p
            · rw [if_pos hc] at h
              simpa using h
            · rw [if_neg hc] at h
              rcases List.mem_append.mp h with h | h
              · exact Or.inr h
              · exact Or.inl (by simpa using h)
          rcases hmem with h | h
          · exact Or.inr ⟨h ▸ hf, (code, rawName), by simp, hlen, h.symm⟩
          · exact Or.inl h
        · refine Or.inr ⟨fun hc => h1 (List.mem_append_left _ hc), e2, by simp [h2], h3⟩
    · simp only [addCodes, if_neg hlen] at hk
      rcases ih found out hsub hnd k hk with h | ⟨h1, e2, h2, h3⟩
      · exact Or.inl h
      · exact Or.inr ⟨h1, e2, by simp [h2], h3⟩

/-- The output of the main loop never holds a duplicate key. -/
theorem addCodes_nodup (p : Params) :
    ∀ (l : List (String × String)) (found : List String)
      (out : List (String × String)),
      keysOf out ⊆ found → (keysOf out).Nodup →
      (keysOf (addCodes p found out l).2).Nodup := by
  intro l
  induction l with
  | nil => intro found out _ hnd; exact hnd
  | cons e rest ih =>
    intro found out hsub hnd
    obtain ⟨code, rawName⟩ := e
    by_cases hlen : codeLen p ≤ strLen code
    · simp only [addCodes, if_pos hlen]
      by_cases hf : shortCode code ∈ found
      · rw [if_pos hf]
        exact ih found out hsub hnd
      · rw [if_neg hf]
        rw [out2_cases p out (shortCode code) (sanitize rawName)
          (fun hc => hf (hsub hc)) hnd]
        obtain ⟨hsub2, hnd2, _, _, _⟩ :=
          out2_inv (shortCode code) (sanitize rawName) found out
            (shortCode code ∈ pcsOf p) hf hsub hnd
        exact ih (found ++ [shortCode code]) _ hsub2 hnd2
    · simp only [addCodes, if_neg hlen]
      exact ih found out hsub hnd

/-- Shape of the key sequence produced by the main loop: the newly
accepted priority short codes in reverse iteration order, then the
initial keys, then the newly accepted non-priority short codes in
iteration order. -/
theorem addCodes_keys_split (p : Params) :
    ∀ (l : List (String × String)) (found : List String)
      (out : List (String × String)),
      keysOf out ⊆ found → (keysOf out).Nodup →
      keysOf (addCodes p found out l).2 =
        ((matchedShorts (codeLen p) found l).filter
            (fun s => decide (s ∈ pcsOf p))).reverse
          ++ keysOf out
          ++ (matchedShorts (codeLen p) found l).filter
            (fun s => decide (s ∉ pcsOf p)) := by
  intro l
  induction l with
  | nil =>
    intro found out _ _
    simp [addCodes, matchedShorts]
  | cons e rest ih =>
    intro found out hsub hnd
    obtain ⟨code, rawName⟩ := e
    by_cases hlen : codeLen p ≤ strLen code
    · simp only [addCodes, matchedShorts, if_pos hlen]
      by_cases hf : shortCode code ∈ found
      · rw [if_pos hf, if_pos hf]
        exact ih found out hsub hnd
      · rw [if_neg hf, if_neg hf]
        rw [out2_cases p out (shortCode code) (sanitize rawName)
          (fun hc => hf (hsub hc)) hnd]
        obtain ⟨hsub2, hnd2, _, _, hkeys⟩ :=
          out2_inv (shortCode code) (sanitize rawName) found out
            (shortCode code ∈ pcsOf p) hf hsub hnd
        rw [ih (found ++ [shortCode code]) _ hsub2 hnd2, hkeys]
        by_cases hp : shortCode code ∈ pcsOf p
        · rw [if_pos hp, List.filter_cons, List.filter_cons]
          have h1 : (decide (shortCode code ∈ pcsOf p)) = true := by simp [hp]
          have h2 : (decide (shortCode code ∉ pcsOf p)) = false := by simp [hp]
          rw [h1, h2]
          simp
        · rw [if_neg hp, List.filter_cons, List.filter_cons]
          have h1 : (decide (shortCode code ∈ pcsOf p)) = false := by simp [hp]
          have h2 : (decide (shortCode code ∉ pcsOf p)) = true := by simp [hp]
          rw [h1, h2]
          simp
    · simp only [addCodes, matchedShorts, if_neg hlen]
      exact ih found out hsub hnd

theorem any_key_iff {α : Type} (d : List (String × α)) (k : String) :
    d.any (fun e => decide (e.1 = k)) = true ↔ k ∈ keysOf d := by
  rw [List.any_eq_true]
  constructor
  · rintro ⟨e, he, hk⟩
    exact (by simpa using hk : e.1 = k) ▸ mem_keysOf_of_mem he
  · intro hk
    obtain ⟨e, he, hk2⟩ := mem_keysOf.mp hk
    exact ⟨e, he, by simpa using hk2⟩

theorem lookupKV_map_rebind_self {α : Type} (d : List (String × α)) (k : String) (v : α)
    (h : k ∈ keysOf d) :
    lookupKV (d.map (fun e => if e.1 = k then (k, v) else e)) k = some v := by
  induction d with
  | nil => simp [keysOf] at h
  | cons e rest ih =>
    rw [List.map_cons, lookupKV_cons]
    by_cases hek : e.1 = k
    · rw [if_pos hek]
      simp
    · rw [if_neg hek, if_neg hek]
      apply ih
      simp only [keysOf, List.map_cons, List.mem_cons] at h
      rcases h with h | h
      · exact absurd h.symm hek
      · exact h

theorem lookupKV_dictInsert_self {α : Type} (d : List (String × α)) (k : String) (v : α) :
    lookupKV (dictInsert d k v) k = some v := by
  by_cases h : k ∈ keysOf d
  · simp only [dictInsert, (any_key_iff d k).mpr h, if_true]
    exact lookupKV_map_rebind_self d k v h
  · rw [dictInsert_fresh d k v h]
    exact lookupKV_append_single_self d k v h

theorem dictInsert_ne_nil {α : Type} (d : List (String × α)) (k : String) (v : α) :
    dictInsert d k v ≠ [] := by
  unfold dictInsert
  by_cases h : d.any (fun e => decide (e.1 = k)) = true
  · rw [if_pos h]
    intro hc
    have hd : d = [] := by
      cases d with
      | nil => rfl
      | cons e rest => simp at hc
    rw [hd] at h
    simp at h
  · rw [if_neg h]
    simp

theorem lookupKV_of_mem_nodup {α : Type} (d : List (String × α)) (k : String) (v : α)
    (hnd : (keysOf d).Nodup) (hm : (k, v) ∈ d) : lookupKV d k = some v := by
  induction d with
  | nil => simp at hm
  | cons e rest ih =>
    have hnd0 : e.1 ∉ keysOf rest ∧ (keysOf rest).Nodup := by
      have := hnd
      simp only [keysOf, List.map_cons, List.nodup_cons] at this
      exact this
    rw [lookupKV_cons]
    rcases List.mem_cons.mp hm with hm | hm
    · rw [if_pos (by rw [← hm])]
      rw [← hm]
    · have hek : e.1 ≠ k := by
        intro hc
        exact hnd0.1 (hc ▸ mem_keysOf_of_mem hm)
      rw [if_neg hek]
      exact ih hnd0.2 hm

theorem pyDictEq_refl {α : Type} [DecidableEq α] (d : List (String × α))
    (hnd : (keysOf d).Nodup) : pyDictEq d d = true := by
  simp only [pyDictEq, Bool.and_eq_true, decide_eq_true_eq, List.all_eq_true]
  refine ⟨by simp, ?_⟩
  intro kv hkv
  have hv := lookupKV_of_mem_nodup d kv.1 kv.2 hnd (by simpa using hkv)
  simpa using hv

theorem cache_snd_ok {α : Type} [DecidableEq α] (u : List (String × α))
    (cd : Option (List (String × α))) (hu : u ≠ []) : (cache u cd).2 = .ok u := by
  cases cd <;> simp [cache, hu]

theorem getDetail_err :
    ∀ (l : List (String × List DetailRow)) (acc : List DetailRow),
      (∃ kv ∈ l, kv.1 ≠ "Level1") →
      getDetail acc l = .error (.keyError "No Level1 key found") := by
  intro l
  induction l with
  | nil =>
    intro acc h
    simp at h
  | cons e rest ih =>
    intro acc h
    obtain ⟨k, v⟩ := e
    by_cases hk : k = "Level1"
    · simp only [getDetail, if_pos hk]
      apply ih
      rcases h with ⟨kv, hkv, hne⟩
      rcases List.mem_cons.mp hkv with hkv | hkv
      · exact absurd (by rw [hkv]; exact hk) hne
      · exact ⟨kv, hkv, hne⟩
    · simp only [getDetail, if_neg hk]

theorem getDetail_all :
    ∀ (l : List (String × List DetailRow)) (acc : List DetailRow),
      (∀ kv ∈ l, kv.1 = "Level1") →
      getDetail acc l = .ok (l.foldl (fun _a kv => kv.2) acc) := by
  intro l
  induction l with
  | nil => intro acc _; rfl
  | cons e rest ih =>
    intro acc h
    obtain ⟨k, v⟩ := e
    have hk : k = "Level1" := h (k, v) (by simp)
    simp only [getDetail, if_pos hk, List.foldl_cons]
    exact ih v (fun kv hkv => h kv (by simp [hkv]))

theorem emitRows_ok (bal : BalResponse) (coa : List (String × String))
    (pf pt : String) (hpf : bal.period_from = some pf) (hpt : bal.period_to = some pt) :
    ∀ data : List (String × BalEntry),
      (∀ kv ∈ data, (lookupKV coa kv.1).isSome →
        kv.2.balance_start.isSome ∧ kv.2.activity.isSome ∧ kv.2.balance_end.isSome) →
      emitRows bal coa data = .ok (cleanRows pf pt coa data) := by
  intro data
  induction data with
  | nil => intro _; rfl
  | cons e rest ih =>
    intro h
    obtain ⟨k, v⟩ := e
    have hrest : emitRows bal coa rest = .ok (cleanRows pf pt coa rest) :=
      ih (fun kv hkv => h kv (by simp [hkv]))
    cases hc : lookupKV coa k with
    | none =>
      simp only [emitRows, hc, cleanRows, List.filterMap_cons]
      simpa [cleanRows] using hrest
    | some name =>
      have hv := h (k, v) (by simp) (by simp [hc])
      obtain ⟨bs, hbs⟩ := Option.isSome_iff_exists.mp hv.1
      obtain ⟨act, hact⟩ := Option.isSome_iff_exists.mp hv.2.1
      obtain ⟨be, hbe⟩ := Option.isSome_iff_exists.mp hv.2.2
      have hbs2 : v.balance_start = some bs := hbs
      have hact2 : v.activity = some act := hact
      have hbe2 : v.balance_end = some be := hbe
      simp only [emitRows, hc, hpf, hpt, hbs2, hact2, hbe2, hrest, cleanRows,
        List.filterMap_cons]

theorem cleanRows_length (coa : List (String × String)) (pf pt : String) :
    ∀ data : List (String × BalEntry),
      (∀ kv ∈ data, (lookupKV coa kv.1).isSome →
        kv.2.balance_start.isSome ∧ kv.2.activity.isSome ∧ kv.2.balance_end.isSome) →
      (cleanRows pf pt coa data).length
        = (data.filter (fun kv => (lookupKV coa kv.1).isSome)).length := by
  intro data
  induction data with
  | nil => intro _; rfl
  | cons e rest ih =>
    intro h
    obtain ⟨k, v⟩ := e
    have hrest := ih (fun kv hkv => h kv (by simp [hkv]))
    cases hc : lookupKV coa k with
    | none =>
      simp only [cleanRows, List.filterMap_cons, List.filter_cons, hc]
      simpa [cleanRows] using hrest
    | some name =>
      have hv := h (k, v) (by simp) (by simp [hc])
      obtain ⟨bs, hbs⟩ := Option.isSome_iff_exists.mp hv.1
      obtain ⟨act, hact⟩ := Option.isSome_iff_exists.mp hv.2.1
      obtain ⟨be, hbe⟩ := Option.isSome_iff_exists.mp hv.2.2
      have hbs2 : v.balance_start = some bs := hbs
      have hact2 : v.activity = some act := hact
      have hbe2 : v.balance_end = some be := hbe
      simp only [cleanRows, List.filterMap_cons, List.filter_cons, hc, hbs2, hact2, hbe2]
      simpa [cleanRows] using hrest

/-- C2: cache reconciliation.  A non-empty upstream value equal to the
cached value causes no write and is returned; a non-empty upstream value
differing from the cached value causes exactly one write of it and is
returned; an empty upstream value causes no write and the cached value
is returned; when both are empty the operation raises the no-data error
instead of returning an empty dataset. -/
theorem c2_cache_reconciliation (A B : List (String × String)) :
    (A ≠ [] → (keysOf A).Nodup → cache A (some A) = ([], .ok A))
    ∧ (A ≠ [] → pyDictEq A B = false → cache A (some B) = ([A], .ok A))
    ∧ (B ≠ [] → cache ([] : List (String × String)) (some B) = ([], .ok B))
    ∧ cache ([] : List (String × String)) (some ([] : List (String × String)))
        = ([], .error "No valid response found")
    ∧ cache ([] : List (String × String)) none
        = ([], .error "No valid response found") := by
  refine ⟨?_, ?_, ?_, rfl, rfl⟩
  · intro hA hnd
    simp [cache, hA, pyDictEq_refl A hnd]
  · intro hA hne
    simp [cache, hA, hne]
  · intro hB
    simp [cache, hB]

/-- Witness for C2 at concrete charts. -/
theorem c2_cache_reconciliation_witness :
    cache [("a", "1")] (some [("a", "1")]) = ([], .ok [("a", "1")])
    ∧ cache [("a", "1")] (some [("b", "2")]) = ([[("a", "1")]], .ok [("a", "1")])
    ∧ cache ([] : List (String × String)) (some [("b", "2")]) = ([], .ok [("b", "2")]) := by
  have h := c2_cache_reconciliation [("a", "1")] [("b", "2")]
  exact ⟨h.1 (by decide) (by decide), h.2.1 (by decide) (by decide),
    h.2.2.1 (by decide)⟩

/-- C9: the trial-balance fetch always injects period_from and period_to
into its result, even when login or the balance request failed, so the
returned mapping is never empty; consequently the cache reconciler
always takes the upstream branch on it and never returns the cached
balance snapshot. -/
theorem c9_trial_balances_never_fall_back (o : Oracle) (s e : String)
    (cd : Option (List (String × JVal))) :
    lookupKV (trial_balances o s e).1 "period_from" = some (.str s)
    ∧ lookupKV (trial_balances o s e).1 "period_to" = some (.str e)
    ∧ (trial_balances o s e).1 ≠ []
    ∧ (cache (trial_balances o s e).1 cd).2 = .ok (trial_balances o s e).1 := by
  have hshape : ∃ base, (trial_balances o s e).1
      = dictInsert (dictInsert base "period_from" (.str s)) "period_to" (.str e) := by
    cases hl : o.login with
    | error u => exact ⟨[], by simp [trial_balances, hl]⟩
    | ok tok =>
      cases hbal : o.balance with
      | error u => exact ⟨[], by simp [trial_balances, hl, hbal]⟩
      | ok bal => exact ⟨bal, by simp [trial_balances, hl, hbal]⟩
  obtain ⟨base, hb⟩ := hshape
  have hne : (trial_balances o s e).1 ≠ [] := by
    rw [hb]; exact dictInsert_ne_nil _ _ _
  refine ⟨?_, ?_, hne, cache_snd_ok _ cd hne⟩
  · rw [hb, lookupKV_dictInsert_ne _ _ _ _ (by decide), lookupKV_dictInsert_self]
  · rw [hb, lookupKV_dictInsert_self]

/-- C1: the claimed login/logout pairing holds for the chart fetch but
fails for the trial-balance fetch: when login fails, get_chart makes no
logout call, while trial_balances still invokes the logout helper once,
passing the null token. -/
theorem c1_logout_pairing_evidence :
    oLoginFail.login = .error .auth
    ∧ (get_chart oLoginFail "Program" true).2 = [ApiCall.login]
    ∧ (trial_balances oLoginFail "2024-01-01" "2024-01-31").2
        = [ApiCall.login, ApiCall.logout none] :=
  ⟨rfl, rfl, rfl⟩

/-- C5 counterexample: with login failing on an authentication
rejection, the chart fetch does not propagate any error; it returns the
empty chart (and makes no logout call). -/
theorem c5_counterexample :
    get_chart oLoginFail "Program" true = ([], [ApiCall.login])
    ∧ oLoginFail.login = Except.error UpErr.auth :=
  ⟨rfl, rfl⟩

/-- C5 amended: when login fails (authentication rejection, malformed
token response or exhausted network retries alike), get_chart swallows
the error, returns an empty chart after the lone login call, and the
failure can surface only later as the no-data error of the cache
reconciler when no cached chart exists. -/
theorem c5_login_failure_swallowed (o : Oracle) (segment : String)
    (hide_inactive : Bool) (err : UpErr) (hlogin : o.login = .error err) :
    get_chart o segment hide_inactive = ([], [ApiCall.login])
    ∧ (cache ([] : List (String × String)) none).2 = .error "No valid response found" := by
  refine ⟨?_, rfl⟩
  simp [get_chart, hlogin]

/-- Witness for C5 at a concrete failing login. -/
theorem c5_login_failure_swallowed_witness :
    get_chart oLoginFail "GL" false = ([], [ApiCall.login]) :=
  (c5_login_failure_swallowed oLoginFail "GL" false UpErr.auth rfl).1

theorem count_filter_keep {α : Type} [DecidableEq α] (p : α → Bool) (a : α)
    (h : p a = true) : ∀ l : List α, (l.filter p).count a = l.count a := by
  intro l
  induction l with
  | nil => rfl
  | cons x xs ih =>
    rw [List.filter_cons]
    by_cases hx : p x = true
    · rw [if_pos hx]
      by_cases hax : a = x
      · subst hax
        simp [List.count_cons, ih]
      · simp [List.count_cons, hax, ih]
    · rw [if_neg hx]
      have hax : a ≠ x := fun hc => hx (hc ▸ h)
      simp [List.count_cons, hax, ih]

/-- C10: prepending an existing key via dict_prepend moves that key to
the first position while keeping its original value and the rest of the
entries in order, discarding the new value; hence injecting a synthetic
code that collides with an existing chart code moves the code to the
front without relabeling it. -/
theorem c10_dict_prepend_existing_key (d : List (String × String)) (k v w : String)
    (hnd : (keysOf d).Nodup) (hl : lookupKV d k = some w) :
    dict_prepend d k v = (k, w) :: d.filter (fun e => decide (e.1 ≠ k))
    ∧ (dict_prepend d k v).head? = some (k, w)
    ∧ lookupKV (dict_prepend d k v) k = some w
    ∧ (∀ x, x ∈ keysOf (dict_prepend d k v) ↔ x ∈ keysOf d)
    ∧ (∀ chart omitList other (p : Params),
        p.show_other = false → p.show_no_program = true →
        naturalChart chart omitList p = d →
        process_chart chart omitList other k p
          = (k, w) :: d.filter (fun e => decide (e.1 ≠ k))) := by
  have hfound := dict_prepend_found d k v w hnd hl
  refine ⟨hfound, by rw [hfound]; rfl, by rw [hfound, lookupKV_cons, if_pos rfl], ?_, ?_⟩
  · intro x
    constructor
    · intro hx
      rw [hfound] at hx
      simp only [keysOf, List.map_cons, List.mem_cons] at hx
      rcases hx with hx | hx
      · exact hx ▸ (lookupKV_isSome d k).mp (by simp [hl])
      · exact keysOf_filter_ne_sub d k hx
    · intro hx
      rw [hfound]
      by_cases hxk : x = k
      · simp [keysOf, hxk]
      · obtain ⟨e, he, hex⟩ := mem_keysOf.mp hx
        have hmem : e ∈ d.filter (fun f => decide (f.1 ≠ k)) :=
          List.mem_filter.mpr ⟨he, by simp [hex, hxk]⟩
        simp only [keysOf, List.map_cons, List.mem_cons]
        exact Or.inr (hex ▸ mem_keysOf_of_mem hmem)
  · intro chart omitList other p hso hsnp hnat
    simp only [process_chart, hso, hsnp, if_false, if_true, Bool.false_eq_true]
    rw [hnat]
    exact dict_prepend_found d k "No Program" w hnd hl

/-- Witness for C10: a colliding No Program code is moved to the front
and keeps its original label. -/
theorem c10_dict_prepend_existing_key_witness :
    dict_prepend [("123456", "A"), ("000000", "Old")] "000000" "No Program"
      = [("000000", "Old"), ("123456", "A")] :=
  (c10_dict_prepend_existing_key [("123456", "A"), ("000000", "Old")] "000000"
    "No Program" "Old" (by decide) (by decide)).1.trans (by decide)

/-- C7 counterexample: the sanitizer keeps the underscore (it is a
regex word character) although the charset given by the spec excludes
it, so the two sanitizers disagree on the name a_b. -/
theorem c7_counterexample :
    sanitize "a_b" = "a_b" ∧ specSanitize "a_b" = "ab"
    ∧ sanitize "a_b" ≠ specSanitize "a_b" := by
  refine ⟨by decide, by decide, by decide⟩

/-- C7 amended: for account names made of ASCII characters, the
sanitized name is the input with exactly the characters outside the kept
class removed: no kept character is removed (occurrence counts are
preserved) and no removed character survives, and on the ASCII range the
kept class is precisely the letters (65-90, 97-122), the digits (48-57),
the underscore (95), the space (32), the whitespace controls tab through
carriage return (9-13) and the separator controls (28-31) — all matched
by the regex `\s` — and the literals . : / = + - @ (46, 58, 47, 61, 43,
45, 64): the charset of the spec plus the underscore and the whitespace
characters other than the plain space. -/
theorem c7_sanitize_characterization (s : String)
    (_hascii : ∀ c ∈ s.data, c.toNat < 128) :
    (sanitize s).data.Sublist s.data
    ∧ (∀ c, c ∈ (sanitize s).data → keepChar c = true)
    ∧ (∀ c, keepChar c = true → (sanitize s).data.count c = s.data.count c)
    ∧ (∀ n : Nat, n < 128 →
        (keepChar (Char.ofNat n) = true ↔
          ((65 ≤ n ∧ n ≤ 90) ∨ (97 ≤ n ∧ n ≤ 122) ∨ (48 ≤ n ∧ n ≤ 57) ∨ n = 95
           ∨ n = 32 ∨ (9 ≤ n ∧ n ≤ 13) ∨ (28 ≤ n ∧ n ≤ 31)
           ∨ n = 46 ∨ n = 58 ∨ n = 47 ∨ n = 61 ∨ n = 43 ∨ n = 45 ∨ n = 64))) := by
  refine ⟨List.filter_sublist s.data, ?_, ?_, ?_⟩
  · intro c hc
    exact (List.mem_filter.mp (by simpa [sanitize] using hc)).2
  · intro c hc
    simpa [sanitize] using count_filter_keep keepChar c hc s.data
  · decide

/-- Witness for C7: the underscore and the file separator control are
kept and their occurrences are preserved on concrete names. -/
theorem c7_sanitize_characterization_witness :
    keepChar '_' = true
    ∧ (sanitize "a_b").data.count '_' = ("a_b" : String).data.count '_'
    ∧ keepChar '\x1c' = true
    ∧ (sanitize "a\x1cb").data.count '\x1c' = ("a\x1cb" : String).data.count '\x1c' := by
  have h1 := c7_sanitize_characterization "a_b" (by decide)
  have h2 := c7_sanitize_characterization "a\x1cb" (by decide)
  exact ⟨by decide, h1.2.2.1 '_' (by decide), by decide,
    h2.2.2.1 '\x1c' (by decide)⟩

theorem keysOf_cons {α : Type} (e : String × α) (d : List (String × α)) :
    keysOf (e :: d) = e.1 :: keysOf d := rfl

/-- C4 counterexample: with two priority codes both present in the raw
chart, the one encountered second is front-inserted before the one
encountered first, so the relative iteration order of priority matches
is reversed in the output, not preserved. -/
theorem c4_counterexample :
    process_chart [("11111100", "A"), ("22222200", "B")] [] "000001" "000000"
        ⟨true, false, false, some ["111111", "222222"]⟩
      = [("222222", "B"), ("111111", "A")]
    ∧ keysOf (process_chart [("11111100", "A"), ("22222200", "B")] [] "000001" "000000"
        ⟨true, false, false, some ["111111", "222222"]⟩) ≠ ["111111", "222222"] := by
  refine ⟨by decide, by decide⟩

/-- C4 amended: every priority match is inserted at the very front of
the output, before all previously inserted entries including earlier
priority matches; hence the keys of the non-synthetic output are the
accepted priority short codes in reverse iteration order followed by
the accepted non-priority short codes in iteration order. -/
theorem c4_priority_front_insert_reverses (chart : List (String × String))
    (omitList : List String) (p : Params) :
    keysOf (naturalChart chart omitList p)
      = ((matchedShorts (codeLen p) omitList chart).filter
          (fun s => decide (s ∈ pcsOf p))).reverse
        ++ (matchedShorts (codeLen p) omitList chart).filter
          (fun s => decide (s ∉ pcsOf p)) := by
  have h := addCodes_keys_split p chart omitList [] (by simp [keysOf]) (by simp [keysOf])
  simp only [naturalChart]
  rw [h]
  simp [keysOf]

/-- C6: with both synthetic flags enabled and non-colliding synthetic
codes, the No Program entry is injected after the Other entry and
therefore precedes it; the processed chart is the two synthetic entries,
then the priority entries, then the natural-order entries. -/
theorem c6_synthetic_ordering (chart : List (String × String)) (omitList : List String)
    (other np : String) (p : Params)
    (hso : p.show_other = true) (hsnp : p.show_no_program = true)
    (hne : np ≠ other)
    (ho : other ∉ keysOf (naturalChart chart omitList p))
    (hnp : np ∉ keysOf (naturalChart chart omitList p)) :
    process_chart chart omitList other np p
      = (np, "No Program") :: (other, "Other") :: naturalChart chart omitList p
    ∧ keysOf (process_chart chart omitList other np p)
        = np :: other ::
          (((matchedShorts (codeLen p) omitList chart).filter
              (fun s => decide (s ∈ pcsOf p))).reverse
            ++ (matchedShorts (codeLen p) omitList chart).filter
              (fun s => decide (s ∉ pcsOf p)))
    ∧ (∀ s ∈ ((matchedShorts (codeLen p) omitList chart).filter
          (fun s => decide (s ∈ pcsOf p))).reverse, s ∈ pcsOf p)
    ∧ (∀ s ∈ (matchedShorts (codeLen p) omitList chart).filter
          (fun s => decide (s ∉ pcsOf p)), s ∉ pcsOf p) := by
  have hnd1 : (keysOf (naturalChart chart omitList p)).Nodup :=
    addCodes_nodup p chart omitList [] (by simp [keysOf]) (by simp [keysOf])
  have h1 : dict_prepend (naturalChart chart omitList p) other "Other"
      = (other, "Other") :: naturalChart chart omitList p :=
    dict_prepend_fresh _ other "Other" hnd1 ho
  have hnd2 : (keysOf ((other, "Other") :: naturalChart chart omitList p)).Nodup := by
    simp only [keysOf, List.map_cons, List.nodup_cons]
    exact ⟨by simpa [keysOf] using ho, by simpa [keysOf] using hnd1⟩
  have hnp2 : np ∉ keysOf ((other, "Other") :: naturalChart chart omitList p) := by
    simp only [keysOf, List.map_cons, List.mem_cons, not_or]
    exact ⟨hne, by simpa [keysOf] using hnp⟩
  have h2 : dict_prepend ((other, "Other") :: naturalChart chart omitList p)
      np "No Program"
      = (np, "No Program") :: (other, "Other") :: naturalChart chart omitList p :=
    dict_prepend_fresh _ np "No Program" hnd2 hnp2
  have hmain : process_chart chart omitList other np p
      = (np, "No Program") :: (other, "Other") :: naturalChart chart omitList p := by
    simp only [process_chart, hso, hsnp, if_true]
    rw [h1, h2]
  have hkeys : keysOf (naturalChart chart omitList p)
      = ((matchedShorts (codeLen p) omitList chart).filter
          (fun s => decide (s ∈ pcsOf p))).reverse
        ++ (matchedShorts (codeLen p) omitList chart).filter
          (fun s => decide (s ∉ pcsOf p)) := by
    have h := addCodes_keys_split p chart omitList [] (by simp [keysOf]) (by simp [keysOf])
    simp only [naturalChart]
    rw [h]
    simp [keysOf]
  refine ⟨hmain, ?_, ?_, ?_⟩
  · rw [hmain, keysOf_cons, keysOf_cons, hkeys]
  · intro s hs
    have hs2 := (List.mem_filter.mp (List.mem_reverse.mp hs)).2
    simpa using hs2
  · intro s hs
    have hs2 := (List.mem_filter.mp hs).2
    simpa using hs2

/-- Witness for C6 at a concrete chart: No Program first, Other second,
natural entries after. -/
theorem c6_synthetic_ordering_witness :
    process_chart [("12345600", "A")] [] "000001" "000000"
        ⟨true, true, true, some ["999999"]⟩
      = [("000000", "No Program"), ("000001", "Other"), ("123456", "A")] := by
  have h := c6_synthetic_ordering [("12345600", "A")] [] "000001" "000000"
    ⟨true, true, true, some ["999999"]⟩ rfl rfl (by decide) (by decide) (by decide)
  exact h.1.trans (by decide)

theorem strLen_shortCode (c : String) : strLen (shortCode c) = min 6 (strLen c) := by
  simp [strLen, shortCode]

theorem codeLen_le_six (p : Params) : codeLen p ≤ 6 := by
  cases hp : p.hide_inactive <;> simp [codeLen, hp]

theorem process_chart_eq (chart : List (String × String)) (omitList : List String)
    (other np : String) (p : Params) :
    process_chart chart omitList other np p
      = (if p.show_no_program then
           dict_prepend (if p.show_other
               then dict_prepend (naturalChart chart omitList p) other "Other"
               else naturalChart chart omitList p) np "No Program"
         else (if p.show_other
               then dict_prepend (naturalChart chart omitList p) other "Other"
               else naturalChart chart omitList p)) := rfl

/-- Facts about one optional synthetic-injection layer: key nodup is
preserved, and keys and bindings other than the injected one pass
through unchanged. -/
theorem layer_facts (d : List (String × String)) (a v : String) (b : Bool)
    (hnd : (keysOf d).Nodup) :
    (keysOf (if b then dict_prepend d a v else d)).Nodup
    ∧ (∀ x, x ≠ a → x ∈ keysOf (if b then dict_prepend d a v else d) → x ∈ keysOf d)
    ∧ (∀ x, x ≠ a → lookupKV (if b then dict_prepend d a v else d) x = lookupKV d x) := by
  cases b with
  | false => exact ⟨hnd, fun x _ hx => by simpa using hx, fun x _ => rfl⟩
  | true =>
    refine ⟨by simpa using dict_prepend_nodup d a v hnd, ?_, ?_⟩
    · intro x hxa hx
      rcases mem_keysOf_dict_prepend d a v x hnd (by simpa using hx) with h | h
      · exact absurd h hxa
      · exact h
    · intro x hxa
      simpa using lookupKV_dict_prepend_ne d a v x hnd hxa

/-- C3 amended: the processed chart never holds a duplicate key; every
non-synthetic key is a short code of length at most 6 and at least the
length threshold (exactly 6 when hide_inactive is enabled), is not an
omitted code, and is bound to the sanitized name of the first qualifying
raw entry that truncates to it — so of several input codes sharing the
same first six characters only the first-encountered one appears. -/
theorem c3_short_code_dedup (chart : List (String × String)) (omitList : List String)
    (other np : String) (p : Params) :
    (keysOf (process_chart chart omitList other np p)).Nodup
    ∧ ∀ k ∈ keysOf (process_chart chart omitList other np p),
        k ≠ other → k ≠ np →
        codeLen p ≤ strLen k ∧ strLen k ≤ 6
        ∧ (p.hide_inactive = true → strLen k = 6)
        ∧ k ∉ omitList
        ∧ lookupKV (process_chart chart omitList other np p) k
            = (firstHit (codeLen p) k chart).map (fun e => sanitize e.2) := by
  have hnd1 : (keysOf (naturalChart chart omitList p)).Nodup :=
    addCodes_nodup p chart omitList [] (by simp [keysOf]) (by simp [keysOf])
  obtain ⟨hnd2, hmem2, hlook2⟩ :=
    layer_facts (naturalChart chart omitList p) other "Other" p.show_other hnd1
  obtain ⟨hnd3, hmem3, hlook3⟩ :=
    layer_facts (if p.show_other
        then dict_prepend (naturalChart chart omitList p) other "Other"
        else naturalChart chart omitList p) np "No Program" p.show_no_program hnd2
  constructor
  · rw [process_chart_eq]
    exact hnd3
  · intro k hk hko hknp
    rw [process_chart_eq] at hk
    have hk2 := hmem3 k hknp hk
    have hk1 := hmem2 k hko hk2
    have hlook : lookupKV (process_chart chart omitList other np p) k
        = lookupKV (naturalChart chart omitList p) k := by
      rw [process_chart_eq, hlook3 k hknp, hlook2 k hko]
    have horigin := addCodes_keys_origin p chart omitList []
      (by simp [keysOf]) (by simp [keysOf]) k (by simpa [naturalChart] using hk1)
    rcases horigin with h | ⟨hkom, e, he, hel, hes⟩
    · simp [keysOf] at h
    · have hklen : strLen k = min 6 (strLen e.1) := by
        rw [← hes, strLen_shortCode]
      refine ⟨?_, ?_, ?_, hkom, ?_⟩
      · rw [hklen]
        exact le_min (codeLen_le_six p) hel
      · rw [hklen]
        exact Nat.min_le_left 6 (strLen e.1)
      · intro hhide
        rw [hklen]
        have h6 : codeLen p = 6 := by simp [codeLen, hhide]
        exact Nat.min_eq_left (h6 ▸ hel)
      · rw [hlook]
        have hnew := addCodes_lookup_new p chart omitList [] k
          (by simp [keysOf]) (by simp [keysOf]) hkom
        simpa [naturalChart] using hnew

/-- Witness for C3 at the spec scenario chart: the duplicate short code
is dropped and 123456 is bound to the first name. -/
theorem c3_short_code_dedup_witness :
    lookupKV (process_chart [("12345600", "Program A"), ("12345601", "Program B"),
        ("54321", "Inactive")] [] "000001" "000000"
        ⟨true, false, false, none⟩) "123456"
      = some "Program A" := by
  have h := (c3_short_code_dedup [("12345600", "Program A"), ("12345601", "Program B"),
      ("54321", "Inactive")] [] "000001" "000000" ⟨true, false, false, none⟩).2
      "123456" (by decide) (by decide) (by decide)
  exact h.2.2.2.2.trans (by decide)

/-- C3 counterexample: with hide_inactive disabled a five-character code
passes the length threshold unchanged, so a non-synthetic output code
of length five exists — the claim that every non-synthetic code has
exactly six characters fails. -/
theorem c3_counterexample :
    keysOf (process_chart [("54321", "X")] [] "000001" "000000"
        ⟨false, false, false, none⟩) = ["54321"]
    ∧ strLen "54321" = 5 := by
  refine ⟨by decide, by decide⟩

/-- C8 amended: the balance formatter raises the key error when
executionResult is absent and the value error when it is not SUCCESS;
it raises the Level1 key error whenever the detail section holds a
top-level key other than Level1; otherwise, provided every collated
account that is present in the chart carries all three amounts (and the
period fields are present), it emits the header row plus exactly one
data row per collated account present in the chart, skipping accounts
absent from the chart — while a chart-present collated account missing
one of the three amounts raises a key error instead. -/
theorem c8_balance_formatter (bal : BalResponse) (coa : List (String × String)) :
    (bal.executionResult = none →
      process_balance bal coa = .error (.keyError "No executionResult key found"))
    ∧ (∀ r, bal.executionResult = some r → r ≠ "SUCCESS" →
      process_balance bal coa = .error (.valueError "Execution result is not SUCCESS"))
    ∧ (bal.executionResult = some "SUCCESS" →
      (∃ kv ∈ bal.extraInformation, kv.1 ≠ "Level1") →
      process_balance bal coa = .error (.keyError "No Level1 key found"))
    ∧ (∀ pf pt, bal.executionResult = some "SUCCESS" →
      (∀ kv ∈ bal.extraInformation, kv.1 = "Level1") →
      bal.period_from = some pf → bal.period_to = some pt →
      (∀ kv ∈ collate [] (detailOf bal.extraInformation),
        (lookupKV coa kv.1).isSome →
        kv.2.balance_start.isSome ∧ kv.2.activity.isSome ∧ kv.2.balance_end.isSome) →
      process_balance bal coa
        = .ok (headersRow
            :: cleanRows pf pt coa (collate [] (detailOf bal.extraInformation)))
      ∧ (cleanRows pf pt coa (collate [] (detailOf bal.extraInformation))).length
          = ((collate [] (detailOf bal.extraInformation)).filter
              (fun kv => (lookupKV coa kv.1).isSome)).length) := by
  refine ⟨?_, ?_, ?_, ?_⟩
  · intro h
    simp [process_balance, h]
  · intro r hr hne
    simp [process_balance, hr, hne]
  · intro hr hex
    simp [process_balance, hr, getDetail_err bal.extraInformation [] hex]
  · intro pf pt hr hall hpf hpt hcomp
    have hdet : getDetail [] bal.extraInformation
        = .ok (detailOf bal.extraInformation) :=
      getDetail_all bal.extraInformation [] hall
    have hemit := emitRows_ok bal coa pf pt hpf hpt
      (collate [] (detailOf bal.extraInformation)) hcomp
    refine ⟨?_, cleanRows_length coa pf pt _ hcomp⟩
    simp [process_balance, hr, hdet, hemit]

/-- Witness for C8: the two status errors at concrete malformed
responses, and the full CSV row set at a complete response. -/
theorem c8_balance_formatter_witness :
    process_balance ⟨none, [], none, none⟩ []
      = .error (.keyError "No executionResult key found")
    ∧ process_balance ⟨some "FAIL", [], none, none⟩ []
      = .error (.valueError "Execution result is not SUCCESS")
    ∧ process_balance ⟨some "SUCCESS",
        [("Level1", [⟨"990300", 1, 10⟩, ⟨"990300", 2, 5⟩, ⟨"990300", 3, 15⟩])],
        some "2024-01-01", some "2024-01-31"⟩
        [("990300", "Platform Infrastructure")]
      = .ok [headersRow,
          [Cell.s "990300", Cell.s "Platform Infrastructure", Cell.s "2024-01-01",
           Cell.s "2024-01-31", Cell.i 10, Cell.i 5, Cell.i 15]] := by
  refine ⟨(c8_balance_formatter ⟨none, [], none, none⟩ []).1 rfl,
    (c8_balance_formatter ⟨some "FAIL", [], none, none⟩ []).2.1 "FAIL" rfl (by decide),
    ?_⟩
  have h := (c8_balance_formatter ⟨some "SUCCESS",
      [("Level1", [⟨"990300", 1, 10⟩, ⟨"990300", 2, 5⟩, ⟨"990300", 3, 15⟩])],
      some "2024-01-01", some "2024-01-31"⟩
      [("990300", "Platform Infrastructure")]).2.2.2 "2024-01-01" "2024-01-31"
      rfl (by decide) rfl rfl (by decide)
  exact h.1.trans rfl

/-- C8 counterexample: a collated account present in the chart whose
rows carry only the activity amount makes the formatter raise the
balance_start key error instead of emitting a row for it. -/
theorem c8_counterexample :
    process_balance ⟨some "SUCCESS", [("Level1", [⟨"990300", 2, 5⟩])],
        some "2024-01-01", some "2024-01-31"⟩ [("990300", "Platform Infrastructure")]
      = .error (.keyError "balance_start")
    ∧ keysOf (collate [] [⟨"990300", 2, 5⟩]) = ["990300"]
    ∧ (lookupKV [("990300", "Platform Infrastructure")] "990300").isSome = true :=
  ⟨rfl, rfl, rfl⟩
